import Mathlib

/-!
Verification of the annotation subsystem of the bible reader
(src/main.go and src/static/js/scripts.js).

DOM modelling.  A verse paragraph (the anchor) is modelled as the ordered
sequence of its text-node leaves in TreeWalker (document) order.  Each
leaf (`Seg`) carries its characters, the overlay wrapper elements that
enclose it, and, when the leaf is the text inside a note marker element
(span.note-symbol), the marker's highlight id and note body.  A DOM Range
endpoint is identified by the index of its text node in walk order plus
the intra-node character offset.  The browser primitives the scripts use
(Range.extractContents followed by Range.insertNode of a single wrapper
element, Node.insertBefore of the marker, and unwrapping a wrapper by
moving its children out) preserve the sequence of characters of the
anchor, splitting the two boundary text nodes; this leaf-sequence
semantics is what the definitions below implement.  The control flow of
the repository's own functions is translated statement by statement.
-/

/-- The overlay wrapper elements created by scripts.js:
span.highlight-only with data-highlight-id, and the span with element id
note-text-{id} that wraps the text a note refers to. -/
inductive Wrap where
  | hl (id : String)
  | noteText (id : String)
deriving DecidableEq

/-- One text-node leaf of the anchor subtree.  `marker = some (id, note)`
when this leaf is the text content of the note-symbol marker element for
highlight id `id` with note body `note`. -/
structure Seg where
  text : List Char
  wraps : List Wrap
  marker : Option (String × String)
deriving DecidableEq

/-- A verse paragraph: element id (verse-{bookId}-{chapter}-{verse}) and
its text-node leaves in document order. -/
structure Para where
  id : String
  segs : List Seg
deriving DecidableEq

/-- The Highlight record of main.go (also the JSON shape the client
posts).  The Go field `End` is called `stop` here because `end` is a
reserved word in Lean; `Type` is `type`.  Offsets are numbers produced
by the client codec, hence naturals. -/
structure Highlight where
  id : String
  type : String
  verseId : String
  start : Nat
  stop : Nat
  note : String
  translation : String
  bookId : Int
  chapter : Int
deriving DecidableEq

/-- The location object returned by getRangeLocation:
{ verseId, start, end }. -/
structure Loc where
  verseId : String
  start : Nat
  stop : Nat
deriving DecidableEq

/-- A live DOM Range confined to one anchor: each endpoint is a text
node (its index in TreeWalker order) together with an intra-node
offset. -/
structure RangeM where
  startContainer : Nat
  startOffset : Nat
  endContainer : Nat
  endOffset : Nat
deriving DecidableEq

/-- The (translation, bookId, chapter) scope from currentState in
scripts.js. -/
structure Scope where
  translation : String
  bookId : Int
  chapter : Int
deriving DecidableEq

/-- Client state: current display scope plus the rendered paragraphs of
bible-content. -/
structure ClientState where
  scope : Scope
  dom : List Para
deriving DecidableEq

/-- Concatenated text-node content of a leaf sequence (Node.textContent
of the anchor). -/
def textC : List Seg → List Char
  | [] => []
  | g :: rest => g.text ++ textC rest

/-- Total character length of the leaf sequence. -/
def sumLens : List Seg → Nat
  | [] => 0
  | g :: rest => g.text.length + sumLens rest

/-- Number of characters strictly before leaf `i` (running offset of the
TreeWalker when it reaches node `i`). -/
def cumB : List Seg → Nat → Nat
  | _, 0 => 0
  | [], _ + 1 => 0
  | g :: rest, i + 1 => g.text.length + cumB rest i

/-- Character length of leaf `i` (0 when out of range). -/
def lenAt : List Seg → Nat → Nat
  | [], _ => 0
  | g :: _, 0 => g.text.length
  | _ :: rest, i + 1 => lenAt rest i

/-- JS String.prototype.startsWith, at the character level. -/
def jsStartsWith (s pre : String) : Bool :=
  pre.toList.isPrefixOf s.toList

/-- JS whitespace test for the characters String.prototype.trim strips
(the ones that occur in this application). -/
def isJsSpace (c : Char) : Bool :=
  c == ' ' || c == '\t' || c == '\n' || c == '\r'

/-- JS String.prototype.trim, at the character level. -/
def jsTrim (s : String) : String :=
  String.mk (((s.toList.dropWhile isJsSpace).reverse.dropWhile isJsSpace).reverse)

/-- The encode loop of getRangeLocation (scripts.js:267-277): walk the
text nodes accumulating a running offset `cc`; the first time the walker
is at the range's start container record `cc + startOffset`; when it is
at the end container record `cc + endOffset` and break.  Containers are
walk-order indices here, so "node === range.startContainer" becomes
"startContainer counts down to 0". -/
def encodeLoop : List Seg → Nat → Nat → Nat → Nat → Nat → Option Nat → Option (Nat × Nat)
  | [], _, _, _, _, _, _ => none
  | g :: rest, sIdx, sOff, eIdx, eOff, cc, st =>
    let st' := match st with
      | none => if sIdx = 0 then some (cc + sOff) else none
      | some v => some v
    match eIdx with
    | 0 =>
      (match st' with
       | some s => some (s, cc + eOff)
       | none => none)
    | eIdx' + 1 => encodeLoop rest (sIdx - 1) sOff eIdx' eOff (cc + g.text.length) st'

/-- getRangeLocation (scripts.js:253-283).  The walk up to the enclosing
P element is modelled by the `Option Para` argument (none when the range
has no P ancestor).  Returns null unless the paragraph id starts with
"verse-", both endpoints were resolved, and start < end. -/
def getRangeLocation (anchorP : Option Para) (r : RangeM) : Option Loc :=
  match anchorP with
  | none => none
  | some p =>
    if jsStartsWith p.id "verse-" then
      match encodeLoop p.segs r.startContainer r.startOffset r.endContainer r.endOffset 0 none with
      | some (s, e) => if s < e then some { verseId := p.id, start := s, stop := e } else none
      | none => none
    else none

/-- The decode loop of applyHighlightFromLocation (scripts.js:297-309):
walk the text nodes accumulating `cc`; the first node with
start < cc + nodeLength is the start node (offset start - cc), the first
node with end <= cc + nodeLength is the end node (offset end - cc), and
the loop breaks there.  Returns none when the source's
"if (startNode && endNode)" guard would fail. -/
def decodeLoop (s e : Nat) : List Seg → Nat → Nat → Option (Nat × Nat) → Option ((Nat × Nat) × (Nat × Nat))
  | [], _, _, _ => none
  | g :: rest, idx, cc, st =>
    let len := g.text.length
    let st' := match st with
      | none => if s < cc + len then some (idx, s - cc) else none
      | some q => some q
    if e ≤ cc + len then
      match st' with
      | some q => some (q, (idx, e - cc))
      | none => none
    else decodeLoop s e rest (idx + 1) (cc + len) st'

/-- Decode a stored {start, end} pair against an anchor's current leaf
sequence (the node walk of applyHighlightFromLocation). -/
def decodeLoc (segs : List Seg) (s e : Nat) : Option ((Nat × Nat) × (Nat × Nat)) :=
  decodeLoop s e segs 0 0 none

/-- Specification helper: first leaf whose accumulated range strictly
contains character position `x` (the start-node search), with the
intra-leaf offset. -/
def findStart : List Seg → Nat → Option (Nat × Nat)
  | [], _ => none
  | g :: rest, x =>
    if x < g.text.length then some (0, x)
    else (findStart rest (x - g.text.length)).map (fun q => (q.1 + 1, q.2))

/-- Specification helper: first leaf whose accumulated range contains
character position `x` inclusively (the end-node search). -/
def findEnd : List Seg → Nat → Option (Nat × Nat)
  | [], _ => none
  | g :: rest, x =>
    if x ≤ g.text.length then some (0, x)
    else (findEnd rest (x - g.text.length)).map (fun q => (q.1 + 1, q.2))

/-- The note-symbol marker's text content: scripts.js:320 sets
noteSymbol.textContent to the memo emoji, a real character in the
anchor's text. -/
def markerChars : List Char := [Char.ofNat 0x1F4DD]

/-- The wrapper a call to applyHighlightFromLocation creates: a note
(span#note-text-{id} plus a marker span.note-symbol carrying the note
body) when location.type === "note", otherwise span.highlight-only. -/
structure WrapMk where
  isNote : Bool
  id : String
  note : String
deriving DecidableEq

def WrapMk.tag (w : WrapMk) : Wrap :=
  if w.isNote then Wrap.noteText w.id else Wrap.hl w.id

def mkW (loc : Highlight) : WrapMk :=
  { isNote := loc.type == "note", id := loc.id, note := loc.note }

/-- Put a leaf inside the freshly created wrapper element. -/
def mkMid (w : WrapMk) (g : Seg) : Seg :=
  { g with wraps := w.tag :: g.wraps }

/-- The marker leaf inserted immediately before the wrapped text for a
note; nothing for a plain highlight. -/
def mkMarker (w : WrapMk) : List Seg :=
  if w.isNote then [{ text := markerChars, wraps := [], marker := some (w.id, w.note) }] else []

def segTake (g : Seg) (n : Nat) : Seg := { g with text := g.text.take n }

def segDrop (g : Seg) (n : Nat) : Seg := { g with text := g.text.drop n }

def segSlice (g : Seg) (a b : Nat) : Seg := { g with text := (g.text.take b).drop a }

/-- Continue wrapping from the leaf after the start leaf up to the end
leaf (index `ei` in the remaining list), splitting the end leaf at
`eo`. -/
def wrapCont (w : WrapMk) : List Seg → Nat → Nat → List Seg
  | [], _, _ => []
  | g :: rest, 0, eo => mkMid w (segTake g eo) :: segDrop g eo :: rest
  | g :: rest, ei + 1, eo => mkMid w g :: wrapCont w rest ei eo

/-- Effect on the leaf sequence of range.extractContents followed by
range.insertNode(wrapper) (and, for a note, insertBefore of the marker)
at decoded positions: split the boundary leaves, put the leaves between
the two split points inside the wrapper, insert the marker leaf before
the wrapped part.  The (si+1, 0) case cannot arise from decoded
positions (the start node never follows the end node) and leaves the
sequence unchanged. -/
def wrapAt (w : WrapMk) : List Seg → Nat → Nat → Nat → Nat → List Seg
  | [], _, _, _, _ => []
  | g :: rest, 0, so, 0, eo =>
    segTake g so :: (mkMarker w ++ (mkMid w (segSlice g so eo) :: segDrop g eo :: rest))
  | g :: rest, 0, so, ei + 1, eo =>
    segTake g so :: (mkMarker w ++ (mkMid w (segDrop g so) :: wrapCont w rest ei eo))
  | g :: rest, si + 1, so, ei + 1, eo => g :: wrapAt w rest si so ei eo
  | g :: rest, _ + 1, _, 0, _ => g :: rest

/-- document.getElementById over the rendered paragraphs. -/
def getElemById (dom : List Para) (vid : String) : Option Para :=
  dom.find? (fun p => p.id == vid)

/-- Replace the (first) paragraph with the given element id. -/
def setPara : List Para → String → Para → List Para
  | [], _, _ => []
  | q :: rest, vid, p => if q.id == vid then p :: rest else q :: setPara rest vid p

/-- The mutation applyHighlightFromLocation performs on the anchor's
leaf sequence: decode start/end against the current walk; if both nodes
resolve, extract the range's contents into the wrapper (plus marker for
a note); otherwise leave the anchor untouched. -/
def applySegs (loc : Highlight) (segs : List Seg) : List Seg :=
  match decodeLoc segs loc.start loc.stop with
  | none => segs
  | some ((si, so), (ei, eo)) => wrapAt (mkW loc) segs si so ei eo

/-- applyHighlightFromLocation (scripts.js:285-350): look the anchor up
by location.verseId (no-op when absent), decode, wrap.  The try/catch
around the DOM insertion never fires in this leaf-sequence semantics;
decode failure is already the "if (startNode && endNode)" guard. -/
def applyHighlightFromLocation (dom : List Para) (loc : Highlight) : List Para :=
  match getElemById dom loc.verseId with
  | none => dom
  | some p => setPara dom loc.verseId { p with segs := applySegs loc p.segs }

/-- The application step of reapplyAllHighlights (scripts.js:362-364):
highlights.forEach(applyHighlightFromLocation) over the fetched rows, in
response order. -/
def reapplyAllHighlights (dom : List Para) (hs : List Highlight) : List Para :=
  hs.foldl applyHighlightFromLocation dom

/-- What the client does when the /api/highlights response arrives
(the code after the awaits in reapplyAllHighlights): it applies every
fetched row to the current DOM.  The fetched rows carry their own
translation/bookId/chapter fields, but the source compares none of them
with the current scope. -/
def onHighlightsResponse (st : ClientState) (hs : List Highlight) : ClientState :=
  { st with dom := reapplyAllHighlights st.dom hs }

/-- Does this leaf belong to the note-symbol marker of highlight `id`
(the querySelector .note-symbol[data-highlight-id=id])? -/
def isMkId (id : String) (g : Seg) : Bool :=
  match g.marker with
  | some q => q.1 == id
  | none => false

/-- Unwrap a wrapper element: its children are moved back into the
parent, so each leaf simply loses that wrapper. -/
def dropW (w : Wrap) (g : Seg) : Seg :=
  { g with wraps := g.wraps.filter (fun x => x != w) }

/-- The note branch of removeHighlight: unwrap span#note-text-{id} and
remove the marker element (with its text). -/
def removeNoteSegs (id : String) (segs : List Seg) : List Seg :=
  (segs.filter (fun g => !(isMkId id g))).map (dropW (Wrap.noteText id))

/-- The highlight branch of removeHighlight: unwrap
span.highlight-only[data-highlight-id=id]. -/
def removeHlSegs (id : String) (segs : List Seg) : List Seg :=
  segs.map (dropW (Wrap.hl id))

def hasMarkerId (dom : List Para) (id : String) : Bool :=
  dom.any (fun p => p.segs.any (isMkId id))

/-- The DOM part of removeHighlight (scripts.js:494-519), reached when
the DELETE call returned ok or 404: if a note-symbol with the id exists,
unwrap the note text span and delete the marker; otherwise unwrap the
highlight span. -/
def removeHighlight (dom : List Para) (id : String) : List Para :=
  if hasMarkerId dom id then
    dom.map (fun p => { p with segs := removeNoteSegs id p.segs })
  else
    dom.map (fun p => { p with segs := removeHlSegs id p.segs })

/-- addNewHighlight (scripts.js:433-482) up to the POST: bail out when
there is no current selection or getRangeLocation returns null; for a
note, bail out when the trimmed textarea is empty; otherwise build the
request body {id, type, ...location, translation, bookId, chapter,
note}.  Returns the body submitted to POST /api/highlights (none when
nothing is submitted). -/
def addNewHighlight (currentSelection : Option (Option Para × RangeM)) (st : Scope)
    (type : String) (noteTextareaValue : String) (freshId : String) : Option Highlight :=
  match currentSelection with
  | none => none
  | some (anchorP, r) =>
    match getRangeLocation anchorP r with
    | none => none
    | some loc =>
      if type = "note" ∧ jsTrim noteTextareaValue = "" then none
      else some { id := freshId, type := type, verseId := loc.verseId,
                  start := loc.start, stop := loc.stop,
                  note := if type = "note" then jsTrim noteTextareaValue else "",
                  translation := st.translation, bookId := st.bookId, chapter := st.chapter }

/-- SQLite text-to-integer conversion applied when a TEXT parameter is
compared against an INTEGER-affinity column: an optionally signed digit
string converts to the integer it denotes; anything else keeps TEXT
storage class and compares unequal to every integer.  (Real-number
literals are out of scope: the application only ever compares decimal
integer strings or non-numeric garbage.) -/
def digitsToNat : List Char → Option Nat
  | [] => none
  | cs => cs.foldl (fun acc c => match acc with
      | none => none
      | some n => if c.isDigit then some (n * 10 + (c.toNat - '0'.toNat)) else none) (some 0)

def parseIntQ (s : String) : Option Int :=
  match s.toList with
  | '-' :: cs => (digitsToNat cs).map (fun n => -(n : Int))
  | '+' :: cs => (digitsToNat cs).map (fun n => (n : Int))
  | cs => (digitsToNat cs).map (fun n => (n : Int))

/-- `column = ?` in main.go's WHERE clause, INTEGER column against a
string-typed parameter. -/
def sqliteIntTextEq (n : Int) (s : String) : Bool :=
  match parseIntQ s with
  | some m => m == n
  | none => false

/-- The WHERE clause of getHighlightsHandler:
translation = ? AND bookId = ? AND chapter = ?. -/
def matchScope (t b c : String) (r : Highlight) : Bool :=
  r.translation == t && sqliteIntTextEq r.bookId b && sqliteIntTextEq r.chapter c

/-- getHighlightsHandler (main.go:93-131).  The durable table is a list
of rows in insertion (rowid) order, which is the order the unordered
SELECT returns.  Result: (response body when 200, status code). -/
def getHighlightsHandler (db : List Highlight) (translation bookIdStr chapterStr : String) :
    Option (List Highlight) × Nat :=
  if translation = "" ∨ bookIdStr = "" ∨ chapterStr = "" then (none, 400)
  else (some (db.filter (matchScope translation bookIdStr chapterStr)), 200)

/-- createHighlightHandler (main.go:133-165).  The body is the decoded
JSON (none = malformed, 400).  The INSERT appends a row; a duplicate
primary key makes stmt.Exec fail, 500.  No field of the row is
validated.  Result: (table after the call, status code). -/
def createHighlightHandler (db : List Highlight) (body : Option Highlight) :
    List Highlight × Nat :=
  match body with
  | none => (db, 400)
  | some h => if db.any (fun r => r.id == h.id) then (db, 500) else (db ++ [h], 201)

/-- Go's strings.TrimPrefix at the character level. -/
def goTrimPre (s pre : List Char) : List Char :=
  if pre.isPrefixOf s then s.drop pre.length else s

def deleteRoutePre : List Char := "/api/highlights/delete/".toList

/-- deleteHighlightHandler (main.go:167-202): 405 unless the method is
DELETE; the id is the path with the route stripped, 400 when empty;
DELETE FROM highlights WHERE id = ?; 404 when no row was affected, else
204.  Result: (table after the call, status code). -/
def deleteHighlightHandler (db : List Highlight) (method : String) (path : List Char) :
    List Highlight × Nat :=
  if method ≠ "DELETE" then (db, 405)
  else
    let idCs := goTrimPre path deleteRoutePre
    if idCs = [] then (db, 400)
    else
      let id : String := String.mk idCs
      let remaining := db.filter (fun r => r.id != id)
      if remaining.length = db.length then (db, 404)
      else (remaining, 204)

/-- Observable text state of the rendered chapter: each paragraph's
element id with its concatenated text content. -/
def paraTexts (dom : List Para) : List (String × List Char) :=
  dom.map (fun p => (p.id, textC p.segs))

/-! ### Concrete values used to evaluate the definitions -/

/-- A freshly rendered verse anchor: verse-number text node "1" followed
by the verse text. -/
def pEx : Para :=
  { id := "verse-43-1-1",
    segs := [{ text := "1".toList, wraps := [], marker := none },
             { text := "In the".toList, wraps := [], marker := none }] }

/-- A selection inside the second text node, characters 3 to 6 of that
node (absolute positions 4 to 7 of the anchor text "1In the"). -/
def rEx : RangeM :=
  { startContainer := 1, startOffset := 3, endContainer := 1, endOffset := 6 }

def locEx : Loc := { verseId := "verse-43-1-1", start := 4, stop := 7 }

def scopeEx : Scope := { translation := "NASB95", bookId := 43, chapter := 1 }

def noteHlEx : Highlight :=
  { id := "h-1", type := "note", verseId := "verse-43-1-1", start := 2, stop := 5,
    note := "check this", translation := "NASB95", bookId := 43, chapter := 1 }

/-- An inverted range (start >= end) as a raw POST body. -/
def badRowEx : Highlight :=
  { id := "h-2", type := "highlight-only", verseId := "verse-43-1-1", start := 5, stop := 2,
    note := "", translation := "NASB95", bookId := 43, chapter := 1 }

def hlSubmitEx : Highlight :=
  { id := "h-3", type := "highlight-only", verseId := "verse-43-1-1", start := 4, stop := 7,
    note := "", translation := "NASB95", bookId := 43, chapter := 1 }

/-- A row stored under the KJV scope while NASB95 is displayed: its
verseId still names an anchor of the current render. -/
def staleHlEx : Highlight :=
  { id := "h-4", type := "highlight-only", verseId := "verse-43-1-1", start := 2, stop := 5,
    note := "", translation := "KJV", bookId := 43, chapter := 1 }

def stClientEx : ClientState := { scope := scopeEx, dom := [pEx] }

def missingHlEx : Highlight :=
  { id := "h-5", type := "highlight-only", verseId := "verse-43-2-1", start := 0, stop := 2,
    note := "", translation := "NASB95", bookId := 43, chapter := 2 }

/-- A stale row whose end offset exceeds the anchor's current text
length. -/
def longHlEx : Highlight :=
  { id := "h-6", type := "highlight-only", verseId := "verse-43-1-1", start := 1, stop := 99,
    note := "", translation := "NASB95", bookId := 43, chapter := 1 }

def goodHlEx : Highlight :=
  { id := "h-7", type := "highlight-only", verseId := "verse-43-1-1", start := 2, stop := 5,
    note := "", translation := "NASB95", bookId := 43, chapter := 1 }

def dbEx : List Highlight := [noteHlEx, staleHlEx, goodHlEx]

/-! ### Arithmetic of the leaf sequence -/

theorem textC_append (a b : List Seg) : textC (a ++ b) = textC a ++ textC b := by
  induction a with
  | nil => simp [textC]
  | cons g rest ih => simp [textC, ih]

theorem textC_length (segs : List Seg) : (textC segs).length = sumLens segs := by
  induction segs with
  | nil => simp [textC, sumLens]
  | cons g rest ih => simp [textC, sumLens, ih]

theorem cumB_nil (i : Nat) : cumB [] i = 0 := by
  cases i <;> rfl

theorem cumB_zero (segs : List Seg) : cumB segs 0 = 0 := by
  cases segs <;> rfl

theorem cumB_succ (segs : List Seg) (i : Nat) (h : i < segs.length) :
    cumB segs (i + 1) = cumB segs i + lenAt segs i := by
  induction segs generalizing i with
  | nil => simp at h
  | cons g rest ih =>
    cases i with
    | zero => simp [cumB, lenAt]
    | succ j =>
      simp only [cumB, lenAt]
      rw [ih j (by simpa using h)]
      omega

theorem cumB_mono (segs : List Seg) (i j : Nat) (h : i ≤ j) :
    cumB segs i ≤ cumB segs j := by
  induction segs generalizing i j with
  | nil => simp [cumB_nil]
  | cons g rest ih =>
    cases i with
    | zero => cases j <;> simp [cumB]
    | succ i' =>
      cases j with
      | zero => omega
      | succ j' =>
        simp only [cumB]
        have := ih i' j' (by omega)
        omega

theorem cumB_le_sum (segs : List Seg) (i : Nat) : cumB segs i ≤ sumLens segs := by
  induction segs generalizing i with
  | nil => simp [cumB_nil, sumLens]
  | cons g rest ih =>
    cases i with
    | zero => simp [cumB]
    | succ i' =>
      simp only [cumB, sumLens]
      have := ih i'
      omega

/-! ### Specification of the two node searches -/

theorem findStart_spec (segs : List Seg) (x i o : Nat)
    (h : findStart segs x = some (i, o)) :
    cumB segs i + o = x ∧ o < lenAt segs i ∧ i < segs.length := by
  induction segs generalizing x i o with
  | nil => simp [findStart] at h
  | cons g rest ih =>
    by_cases hx : x < g.text.length
    · simp [findStart, hx] at h
      obtain ⟨hi, ho⟩ := h
      subst hi; subst ho
      simp [cumB, lenAt, hx]
    · simp [findStart, hx, Option.map_eq_some'] at h
      obtain ⟨i', hrec, hi⟩ := h
      subst hi
      have := ih (x - g.text.length) i' o hrec
      simp only [cumB, lenAt]
      refine ⟨by omega, this.2.1, by simpa using this.2.2⟩

theorem findEnd_spec (segs : List Seg) (x i o : Nat)
    (h : findEnd segs x = some (i, o)) :
    cumB segs i + o = x ∧ o ≤ lenAt segs i ∧ i < segs.length ∧ (i = 0 ∨ cumB segs i < x) := by
  induction segs generalizing x i o with
  | nil => simp [findEnd] at h
  | cons g rest ih =>
    by_cases hx : x ≤ g.text.length
    · simp [findEnd, hx] at h
      obtain ⟨hi, ho⟩ := h
      subst hi; subst ho
      simp [cumB, lenAt, hx]
    · simp [findEnd, hx, Option.map_eq_some'] at h
      obtain ⟨i', hrec, hi⟩ := h
      subst hi
      have hrest := ih (x - g.text.length) i' o hrec
      simp only [cumB, lenAt]
      refine ⟨by omega, hrest.2.1, by simpa using hrest.2.2.1, Or.inr ?_⟩
      have h1 := hrest.1
      rcases hrest.2.2.2 with h0 | hlt
      · subst h0
        have hc : cumB rest 0 = 0 := cumB_zero rest
        omega
      · omega

theorem findStart_exists (segs : List Seg) (x : Nat) (h : x < sumLens segs) :
    ∃ i o, findStart segs x = some (i, o) := by
  induction segs generalizing x with
  | nil => simp [sumLens] at h
  | cons g rest ih =>
    by_cases hx : x < g.text.length
    · exact ⟨0, x, by simp [findStart, hx]⟩
    · obtain ⟨i, o, hio⟩ := ih (x - g.text.length) (by simp [sumLens] at h; omega)
      exact ⟨i + 1, o, by simp [findStart, hx, hio]⟩

theorem findEnd_exists (segs : List Seg) (x : Nat) (h0 : 0 < x) (h : x ≤ sumLens segs) :
    ∃ i o, findEnd segs x = some (i, o) := by
  induction segs generalizing x with
  | nil => simp [sumLens] at h; omega
  | cons g rest ih =>
    by_cases hx : x ≤ g.text.length
    · exact ⟨0, x, by simp [findEnd, hx]⟩
    · obtain ⟨i, o, hio⟩ := ih (x - g.text.length) (by omega) (by simp [sumLens] at h; omega)
      exact ⟨i + 1, o, by simp [findEnd, hx, hio]⟩

/-! ### The decode walk finds the leaves containing the stored offsets -/

theorem decodeLoop_some (s e : Nat) : ∀ (segs : List Seg) (idx cc : Nat) (sp : Nat × Nat),
    decodeLoop s e segs idx cc (some sp) =
      (findEnd segs (e - cc)).map (fun q => (sp, (idx + q.1, q.2))) := by
  intro segs
  induction segs with
  | nil => intro idx cc sp; simp [decodeLoop, findEnd]
  | cons g rest ih =>
    intro idx cc sp
    by_cases he : e ≤ cc + g.text.length
    · have he2 : e - cc ≤ g.text.length := by omega
      simp [decodeLoop, findEnd, he, he2]
    · have he2 : ¬ (e - cc ≤ g.text.length) := by omega
      have hsub : e - cc - g.text.length = e - (cc + g.text.length) := by omega
      simp only [decodeLoop, if_neg he]
      rw [ih (idx + 1) (cc + g.text.length) sp]
      simp only [findEnd, if_neg he2, hsub]
      cases hfe : findEnd rest (e - (cc + g.text.length)) with
      | none => simp
      | some q => simp [Prod.ext_iff]; omega

theorem decodeLoop_none (s e : Nat) : ∀ (segs : List Seg) (idx cc : Nat),
    cc ≤ s → s < e →
    decodeLoop s e segs idx cc none =
      match findStart segs (s - cc), findEnd segs (e - cc) with
      | some q1, some q2 => some ((idx + q1.1, q1.2), (idx + q2.1, q2.2))
      | _, _ => none := by
  intro segs
  induction segs with
  | nil =>
    intro idx cc _ _
    simp [decodeLoop, findStart, findEnd]
  | cons g rest ih =>
    intro idx cc hcs hse
    by_cases he : e ≤ cc + g.text.length
    · have hs : s < cc + g.text.length := by omega
      have hs2 : s - cc < g.text.length := by omega
      have he2 : e - cc ≤ g.text.length := by omega
      simp [decodeLoop, findStart, findEnd, he, hs, hs2, he2]
    · have he2 : ¬ (e - cc ≤ g.text.length) := by omega
      have hesub : e - cc - g.text.length = e - (cc + g.text.length) := by omega
      by_cases hs : s < cc + g.text.length
      · have hs2 : s - cc < g.text.length := by omega
        simp only [decodeLoop, if_neg he, if_pos hs]
        rw [decodeLoop_some s e rest (idx + 1) (cc + g.text.length) (idx, s - cc)]
        simp only [findStart, if_pos hs2, findEnd, if_neg he2, hesub]
        cases hfe : findEnd rest (e - (cc + g.text.length)) with
        | none => simp
        | some q => simp [Prod.ext_iff]; omega
      · have hs2 : ¬ (s - cc < g.text.length) := by omega
        have hssub : s - cc - g.text.length = s - (cc + g.text.length) := by omega
        simp only [decodeLoop, if_neg he, if_neg hs]
        rw [ih (idx + 1) (cc + g.text.length) (by omega) hse]
        simp only [findStart, if_neg hs2, hssub, findEnd, if_neg he2, hesub]
        cases hfs : findStart rest (s - (cc + g.text.length)) with
        | none =>
          cases hfe : findEnd rest (e - (cc + g.text.length)) with
          | none => simp
          | some q => simp
        | some q1 =>
          cases hfe : findEnd rest (e - (cc + g.text.length)) with
          | none => simp
          | some q2 => simp [Prod.ext_iff]; omega

/-- When 0 <= start < end <= total length, the decode walk of
applyHighlightFromLocation resolves both nodes, and the decoded
node/offset pairs denote exactly the absolute character positions start
and end. -/
theorem dec_succ (segs : List Seg) (s e : Nat) (hlt : s < e) (hle : e ≤ sumLens segs) :
    ∃ si so ei eo, decodeLoc segs s e = some ((si, so), (ei, eo)) ∧
      cumB segs si + so = s ∧ cumB segs ei + eo = e ∧
      si ≤ ei ∧ ei < segs.length ∧
      so < lenAt segs si ∧ eo ≤ lenAt segs ei ∧ (si = ei → so ≤ eo) := by
  obtain ⟨si, so, hfs⟩ := findStart_exists segs s (by have := textC_length segs; omega)
  obtain ⟨ei, eo, hfe⟩ := findEnd_exists segs e (by omega) hle
  have hss := findStart_spec segs s si so hfs
  have hes := findEnd_spec segs e ei eo hfe
  have hdec : decodeLoc segs s e = some ((si, so), (ei, eo)) := by
    unfold decodeLoc
    rw [decodeLoop_none s e segs 0 0 (by omega) hlt]
    simp [hfs, hfe]
  have hsei : si ≤ ei := by
    by_contra hc
    push_neg at hc
    have h1 : cumB segs (ei + 1) ≤ cumB segs si := cumB_mono segs (ei + 1) si hc
    have h2 : cumB segs (ei + 1) = cumB segs ei + lenAt segs ei :=
      cumB_succ segs ei hes.2.2.1
    omega
  refine ⟨si, so, ei, eo, hdec, hss.1, hes.1, hsei, hes.2.2.1, hss.2.1, hes.2.1, ?_⟩
  intro hq
  subst hq
  omega

/-- When the anchor's text is shorter than the stored end offset, the
decode walk never resolves the end node and applyHighlightFromLocation
leaves the anchor untouched (the recoverable per-annotation failure). -/
theorem decodeLoop_long (s e : Nat) : ∀ (segs : List Seg) (idx cc : Nat)
    (st : Option (Nat × Nat)), cc + sumLens segs < e →
    decodeLoop s e segs idx cc st = none := by
  intro segs
  induction segs with
  | nil => intro idx cc st _; simp [decodeLoop]
  | cons g rest ih =>
    intro idx cc st hlong
    simp only [sumLens] at hlong
    have he : ¬ (e ≤ cc + g.text.length) := by omega
    simp only [decodeLoop, if_neg he]
    exact ih (idx + 1) (cc + g.text.length) _ (by omega)

theorem decodeLoc_none_of_long (segs : List Seg) (s e : Nat) (h : sumLens segs < e) :
    decodeLoc segs s e = none :=
  decodeLoop_long s e segs 0 0 none (by omega)

/-! ### The encode walk computes absolute offsets -/

theorem encodeLoop_some : ∀ (segs : List Seg) (sI sO eI eO cc : Nat) (v : Nat),
    encodeLoop segs sI sO eI eO cc (some v) =
      if eI < segs.length then some (v, cc + cumB segs eI + eO) else none := by
  intro segs
  induction segs with
  | nil => intro sI sO eI eO cc v; simp [encodeLoop]
  | cons g rest ih =>
    intro sI sO eI eO cc v
    cases eI with
    | zero => simp [encodeLoop, cumB_zero]
    | succ eI' =>
      simp only [encodeLoop]
      rw [ih (sI - 1) sO eI' eO (cc + g.text.length) v]
      simp only [List.length_cons, cumB]
      by_cases hlt : eI' < rest.length
      · simp [hlt, Nat.succ_lt_succ hlt]
        omega
      · simp [hlt, fun h => hlt (Nat.lt_of_succ_lt_succ h)]

theorem encodeLoop_none : ∀ (segs : List Seg) (sI sO eI eO cc : Nat),
    encodeLoop segs sI sO eI eO cc none =
      if sI ≤ eI ∧ eI < segs.length then
        some (cc + cumB segs sI + sO, cc + cumB segs eI + eO)
      else none := by
  intro segs
  induction segs with
  | nil => intro sI sO eI eO cc; simp [encodeLoop]
  | cons g rest ih =>
    intro sI sO eI eO cc
    cases sI with
    | zero =>
      cases eI with
      | zero => simp [encodeLoop, cumB_zero]
      | succ eI' =>
        simp only [encodeLoop, eq_self_iff_true, if_true]
        rw [encodeLoop_some rest (0 - 1) sO eI' eO (cc + g.text.length) (cc + sO)]
        simp only [List.length_cons, cumB, cumB_zero]
        by_cases hlt : eI' < rest.length
        · simp [hlt, Nat.succ_lt_succ hlt]
          omega
        · simp [hlt, fun h => hlt (Nat.lt_of_succ_lt_succ h)]
    | succ sI' =>
      cases eI with
      | zero => simp [encodeLoop]
      | succ eI' =>
        simp only [encodeLoop, if_neg (Nat.succ_ne_zero sI'), Nat.add_sub_cancel]
        rw [ih sI' sO eI' eO (cc + g.text.length)]
        simp only [List.length_cons, cumB]
        by_cases hc : sI' ≤ eI' ∧ eI' < rest.length
        · simp [hc, hc.1, Nat.succ_lt_succ hc.2, Nat.succ_le_succ hc.1]
          omega
        · have hc2 : ¬ (sI' + 1 ≤ eI' + 1 ∧ eI' + 1 < rest.length + 1) := by omega
          simp only [if_neg hc, if_neg hc2]

/-- Everything getRangeLocation guarantees about a non-null result: the
anchor resolved to a verse paragraph, start < end, and start/end are the
absolute character positions of the two range endpoints in the walk. -/
theorem getRangeLocation_char (a : Option Para) (r : RangeM) (loc : Loc)
    (h : getRangeLocation a r = some loc) :
    loc.start < loc.stop ∧ jsStartsWith loc.verseId "verse-" = true ∧
    ∃ p, a = some p ∧ loc.verseId = p.id ∧
      r.startContainer ≤ r.endContainer ∧ r.endContainer < p.segs.length ∧
      loc.start = cumB p.segs r.startContainer + r.startOffset ∧
      loc.stop = cumB p.segs r.endContainer + r.endOffset := by
  cases a with
  | none => simp [getRangeLocation] at h
  | some p =>
    by_cases hsw : jsStartsWith p.id "verse-" = true
    · simp only [getRangeLocation, if_pos hsw, encodeLoop_none, Nat.zero_add] at h
      by_cases hc : r.startContainer ≤ r.endContainer ∧ r.endContainer < p.segs.length
      · simp only [if_pos hc] at h
        by_cases hlt : cumB p.segs r.startContainer + r.startOffset <
            cumB p.segs r.endContainer + r.endOffset
        · simp only [if_pos hlt, Option.some.injEq] at h
          subst h
          exact ⟨hlt, hsw, p, rfl, rfl, hc.1, hc.2, rfl, rfl⟩
        · simp [if_neg hlt] at h
      · simp [if_neg hc] at h
    · simp [getRangeLocation, hsw] at h

/-! ### The wrap operation reslices the character sequence -/

theorem wrapCont_textC (w : WrapMk) : ∀ (segs : List Seg) (ei eo : Nat),
    textC (wrapCont w segs ei eo) = textC segs := by
  intro segs
  induction segs with
  | nil => intro ei eo; rfl
  | cons g rest ih =>
    intro ei eo
    cases ei with
    | zero =>
      simp only [wrapCont, textC, mkMid, segTake, segDrop]
      rw [← List.append_assoc, List.take_append_drop]
    | succ ei' => simp [wrapCont, textC, mkMid, ih]

theorem wrapCont_marker (w : WrapMk) : ∀ (segs : List Seg) (ei eo : Nat) (g1 : Seg),
    g1 ∈ wrapCont w segs ei eo → ∃ g0 ∈ segs, g1.marker = g0.marker := by
  intro segs
  induction segs with
  | nil => intro ei eo g1 h; simp [wrapCont] at h
  | cons g rest ih =>
    intro ei eo g1 h
    cases ei with
    | zero =>
      simp only [wrapCont, List.mem_cons] at h
      rcases h with h | h | h
      · exact ⟨g, List.mem_cons_self g rest, by simp [h, mkMid, segTake]⟩
      · exact ⟨g, List.mem_cons_self g rest, by simp [h, segDrop]⟩
      · exact ⟨g1, List.mem_cons_of_mem g h, rfl⟩
    | succ ei' =>
      simp only [wrapCont, List.mem_cons] at h
      rcases h with h | h
      · exact ⟨g, List.mem_cons_self g rest, by simp [h, mkMid]⟩
      · obtain ⟨g0, hg0, hm⟩ := ih ei' eo g1 h
        exact ⟨g0, List.mem_cons_of_mem g hg0, hm⟩

/-- Master decomposition of the extract-and-wrap mutation at decoded
positions: the new leaf sequence is a left part, the marker leaves, and
a right part; the left/right parts carry exactly the characters before
and from the absolute start position, and every leaf of them inherits
its marker field from an original leaf. -/
theorem wrapAt_decomp (w : WrapMk) : ∀ (segs : List Seg) (si so ei eo : Nat),
    si ≤ ei → ei < segs.length → so ≤ lenAt segs si → eo ≤ lenAt segs ei →
    (si = ei → so ≤ eo) →
    ∃ A C, wrapAt w segs si so ei eo = A ++ (mkMarker w ++ C) ∧
      textC A = (textC segs).take (cumB segs si + so) ∧
      textC C = (textC segs).drop (cumB segs si + so) ∧
      (∀ g1 ∈ A, ∃ g0 ∈ segs, g1.marker = g0.marker) ∧
      (∀ g1 ∈ C, ∃ g0 ∈ segs, g1.marker = g0.marker) := by
  intro segs
  induction segs with
  | nil => intro si so ei eo _ hlen _ _ _; simp at hlen
  | cons g rest ih =>
    intro si so ei eo hsei hlen hso heo hsame
    cases si with
    | zero =>
      have hso' : so ≤ g.text.length := by simpa [lenAt] using hso
      cases ei with
      | zero =>
        have heo' : eo ≤ g.text.length := by simpa [lenAt] using heo
        have hsoeo : so ≤ eo := hsame rfl
        refine ⟨[segTake g so],
          mkMid w (segSlice g so eo) :: segDrop g eo :: rest, by simp [wrapAt], ?_, ?_, ?_, ?_⟩
        · simp only [textC, segTake, List.append_nil, cumB_zero, Nat.zero_add]
          rw [List.take_append_eq_append_take, Nat.sub_eq_zero_of_le hso',
            List.take_zero (textC rest), List.append_nil]
        · have hlen2 : (g.text.take eo).length = eo := by rw [List.length_take]; omega
          have key : (g.text.take eo).drop so ++ g.text.drop eo = g.text.drop so := by
            conv_rhs => rw [← List.take_append_drop eo g.text]
            rw [List.drop_append_eq_append_drop, hlen2, Nat.sub_eq_zero_of_le hsoeo,
              List.drop_zero]
          simp only [textC, mkMid, segSlice, segDrop, cumB_zero, Nat.zero_add]
          rw [List.drop_append_eq_append_drop, Nat.sub_eq_zero_of_le hso',
            List.drop_zero (textC rest), ← List.append_assoc, key]
        · intro g1 h1
          simp only [List.mem_singleton] at h1
          exact ⟨g, List.mem_cons_self g rest, by simp [h1, segTake]⟩
        · intro g1 h1
          simp only [List.mem_cons] at h1
          rcases h1 with h1 | h1 | h1
          · exact ⟨g, List.mem_cons_self g rest, by simp [h1, mkMid, segSlice]⟩
          · exact ⟨g, List.mem_cons_self g rest, by simp [h1, segDrop]⟩
          · exact ⟨g1, List.mem_cons_of_mem g h1, rfl⟩
      | succ ei' =>
        refine ⟨[segTake g so], mkMid w (segDrop g so) :: wrapCont w rest ei' eo,
          by simp [wrapAt], ?_, ?_, ?_, ?_⟩
        · simp only [textC, segTake, List.append_nil, cumB_zero, Nat.zero_add]
          rw [List.take_append_eq_append_take, Nat.sub_eq_zero_of_le hso',
            List.take_zero (textC rest), List.append_nil]
        · simp only [textC, mkMid, segDrop, cumB_zero, Nat.zero_add, wrapCont_textC]
          rw [List.drop_append_eq_append_drop, Nat.sub_eq_zero_of_le hso',
            List.drop_zero (textC rest)]
        · intro g1 h1
          simp only [List.mem_singleton] at h1
          exact ⟨g, List.mem_cons_self g rest, by simp [h1, segTake]⟩
        · intro g1 h1
          simp only [List.mem_cons] at h1
          rcases h1 with h1 | h1
          · exact ⟨g, List.mem_cons_self g rest, by simp [h1, mkMid, segDrop]⟩
          · obtain ⟨g0, hg0, hm⟩ := wrapCont_marker w rest ei' eo g1 h1
            exact ⟨g0, List.mem_cons_of_mem g hg0, hm⟩
    | succ si' =>
      cases ei with
      | zero => omega
      | succ ei' =>
        obtain ⟨A', C', heq, hA, hC, hmA, hmC⟩ :=
          ih si' so ei' eo (by omega) (by simpa using hlen)
            (by simpa [lenAt] using hso) (by simpa [lenAt] using heo)
            (fun hq => hsame (by omega))
        have hposA : textC (g :: A') =
            (textC (g :: rest)).take (cumB (g :: rest) (si' + 1) + so) := by
          simp only [textC, cumB, hA]
          have ht : g.text.take (g.text.length + cumB rest si' + so) = g.text :=
            List.take_of_length_le (by omega)
          rw [List.take_append_eq_append_take, ht]
          congr 2
          omega
        have hposC : textC C' =
            (textC (g :: rest)).drop (cumB (g :: rest) (si' + 1) + so) := by
          simp only [textC, cumB, hC]
          have hd : g.text.drop (g.text.length + cumB rest si' + so) = [] :=
            List.drop_eq_nil_of_le (by omega)
          rw [List.drop_append_eq_append_drop, hd, List.nil_append]
          congr 1
          omega
        refine ⟨g :: A', C', by simp [wrapAt, heq], hposA, hposC, ?_, ?_⟩
        · intro g1 h1
          simp only [List.mem_cons] at h1
          rcases h1 with h1 | h1
          · exact ⟨g, List.mem_cons_self g rest, by simp [h1]⟩
          · obtain ⟨g0, hg0, hm⟩ := hmA g1 h1
            exact ⟨g0, List.mem_cons_of_mem g hg0, hm⟩
        · intro g1 h1
          obtain ⟨g0, hg0, hm⟩ := hmC g1 h1
          exact ⟨g0, List.mem_cons_of_mem g hg0, hm⟩

/-! ### Unwrapping and removal preserve or restore the text -/

theorem textC_map_dropW (w : Wrap) : ∀ (segs : List Seg),
    textC (segs.map (dropW w)) = textC segs := by
  intro segs
  induction segs with
  | nil => rfl
  | cons g rest ih => simp [textC, dropW, ih]

theorem filter_keep_of_no_marker (id : String) : ∀ (segs : List Seg),
    (∀ g ∈ segs, isMkId id g = false) →
    segs.filter (fun g => !(isMkId id g)) = segs := by
  intro segs h
  apply List.filter_eq_self.mpr
  intro g hg
  simp [h g hg]

theorem removeNoteSegs_text_fresh (id : String) (segs : List Seg)
    (h : ∀ g ∈ segs, isMkId id g = false) :
    textC (removeNoteSegs id segs) = textC segs := by
  unfold removeNoteSegs
  rw [filter_keep_of_no_marker id segs h, textC_map_dropW]

theorem removeHlSegs_text (id : String) (segs : List Seg) :
    textC (removeHlSegs id segs) = textC segs := by
  unfold removeHlSegs
  exact textC_map_dropW _ segs

/-! ### getElementById and in-place paragraph replacement -/

theorem getElemById_decomp : ∀ (dom : List Para) (vid : String) (p : Para),
    getElemById dom vid = some p →
    ∃ d1 d2, dom = d1 ++ p :: d2 ∧ p.id = vid ∧
      ∀ pnew, setPara dom vid pnew = d1 ++ pnew :: d2 := by
  intro dom
  induction dom with
  | nil => intro vid p h; simp [getElemById] at h
  | cons q rest ih =>
    intro vid p h
    by_cases hq : q.id = vid
    · have hq' : (q.id == vid) = true := beq_iff_eq.mpr hq
      have : q = p := by
        simp [getElemById, List.find?, hq'] at h
        exact h
      subst this
      refine ⟨[], rest, rfl, hq, ?_⟩
      intro pnew
      simp [setPara, hq']
    · have hq' : (q.id == vid) = false := beq_eq_false_iff_ne.mpr hq
      have hrec : getElemById rest vid = some p := by
        simpa [getElemById, List.find?, hq'] using h
      obtain ⟨d1, d2, hsplit, hid, hset⟩ := ih vid p hrec
      refine ⟨q :: d1, d2, by simp [hsplit], hid, ?_⟩
      intro pnew
      simp [setPara, hq', hset pnew]

theorem setPara_self (dom : List Para) (vid : String) (p : Para)
    (h : getElemById dom vid = some p) : setPara dom vid p = dom := by
  obtain ⟨d1, d2, hsplit, _, hset⟩ := getElemById_decomp dom vid p h
  rw [hset p, hsplit]

/-- applyHighlightFromLocation is a no-op when the verse anchor is not
in the rendered DOM. -/
theorem apply_noop_of_absent (dom : List Para) (loc : Highlight)
    (h : getElemById dom loc.verseId = none) :
    applyHighlightFromLocation dom loc = dom := by
  unfold applyHighlightFromLocation
  rw [h]

/-- applyHighlightFromLocation is a no-op when the anchor's current text
is shorter than the stored end offset (stale location: the decode walk
leaves endNode null). -/
theorem apply_noop_of_short (dom : List Para) (loc : Highlight)
    (h : ∀ p, getElemById dom loc.verseId = some p → sumLens p.segs < loc.stop) :
    applyHighlightFromLocation dom loc = dom := by
  unfold applyHighlightFromLocation
  cases hfind : getElemById dom loc.verseId with
  | none => rfl
  | some p =>
    show setPara dom loc.verseId { p with segs := applySegs loc p.segs } = dom
    have hid : applySegs loc p.segs = p.segs := by
      unfold applySegs
      rw [decodeLoc_none_of_long p.segs loc.start loc.stop (h p hfind)]
    rw [hid]
    exact setPara_self dom loc.verseId p hfind

/-- Decomposition of the apply mutation for a valid stored range: the
anchor's new leaf sequence is left part ++ marker ++ right part at the
absolute position start. -/
theorem applySegs_decomp (loc : Highlight) (segs : List Seg)
    (h1 : loc.start < loc.stop) (h2 : loc.stop ≤ sumLens segs) :
    ∃ A C, applySegs loc segs = A ++ (mkMarker (mkW loc) ++ C) ∧
      textC A = (textC segs).take loc.start ∧
      textC C = (textC segs).drop loc.start ∧
      (∀ g1 ∈ A, ∃ g0 ∈ segs, g1.marker = g0.marker) ∧
      (∀ g1 ∈ C, ∃ g0 ∈ segs, g1.marker = g0.marker) := by
  obtain ⟨si, so, ei, eo, hdec, hs, he, hsei, hei, hso, heo, hsame⟩ :=
    dec_succ segs loc.start loc.stop h1 h2
  obtain ⟨A, C, heq, hA, hC, hmA, hmC⟩ :=
    wrapAt_decomp (mkW loc) segs si so ei eo hsei hei (by omega) heo hsame
  unfold applySegs
  rw [hdec]
  exact ⟨A, C, heq, by rw [hA, hs], by rw [hC, hs], hmA, hmC⟩

theorem isMkId_congr (id : String) (g1 g0 : Seg) (h : g1.marker = g0.marker) :
    isMkId id g1 = isMkId id g0 := by
  unfold isMkId
  rw [h]

/-- Removing a note whose id is fresh everywhere except the inserted
marker deletes exactly the marker leaves: the text goes back to left
part ++ right part. -/
theorem removeNote_of_wrapped (id : String) (w : WrapMk) (A C : List Seg)
    (hw : w.id = id) (hn : w.isNote = true)
    (hA : ∀ g ∈ A, isMkId id g = false) (hC : ∀ g ∈ C, isMkId id g = false) :
    textC (removeNoteSegs id (A ++ (mkMarker w ++ C))) = textC A ++ textC C := by
  unfold removeNoteSegs
  rw [List.filter_append, List.filter_append]
  have hfA : A.filter (fun g => !(isMkId id g)) = A := by
    apply List.filter_eq_self.mpr
    intro g hg
    simp [hA g hg]
  have hfC : C.filter (fun g => !(isMkId id g)) = C := by
    apply List.filter_eq_self.mpr
    intro g hg
    simp [hC g hg]
  have hfM : (mkMarker w).filter (fun g => !(isMkId id g)) = [] := by
    unfold mkMarker
    rw [if_pos hn]
    simp [isMkId, hw]
  rw [hfA, hfC, hfM, List.nil_append, List.map_append, textC_append,
    textC_map_dropW, textC_map_dropW]

/-- With no stored annotation for any rendered anchor id, the
re-application pass leaves the DOM unchanged. -/
theorem reapply_noop_of_all_absent (dom : List Para) (hs : List Highlight)
    (h : ∀ h0 ∈ hs, getElemById dom h0.verseId = none) :
    reapplyAllHighlights dom hs = dom := by
  induction hs with
  | nil => rfl
  | cons h0 rest ih =>
    unfold reapplyAllHighlights
    simp only [List.foldl_cons]
    rw [apply_noop_of_absent dom h0 (h h0 (List.mem_cons_self h0 rest))]
    exact ih (fun h1 hm => h h1 (List.mem_cons_of_mem h0 hm))

theorem getElemById_mem (dom : List Para) (vid : String) (p : Para)
    (h : getElemById dom vid = some p) : p ∈ dom ∧ p.id = vid := by
  unfold getElemById at h
  have h2 := List.find?_some h
  exact ⟨List.mem_of_find?_eq_some h, beq_iff_eq.mp (by simpa using h2)⟩

theorem paraTexts_append (a b : List Para) :
    paraTexts (a ++ b) = paraTexts a ++ paraTexts b := by
  simp [paraTexts]

theorem paraTexts_cons (q : Para) (a : List Para) :
    paraTexts (q :: a) = (q.id, textC q.segs) :: paraTexts a := rfl

theorem paraTexts_removeNote_fresh (id : String) (ps : List Para)
    (h : ∀ q ∈ ps, ∀ g ∈ q.segs, isMkId id g = false) :
    paraTexts (ps.map (fun p => { p with segs := removeNoteSegs id p.segs })) = paraTexts ps := by
  induction ps with
  | nil => rfl
  | cons q rest ih =>
    simp only [List.map_cons, paraTexts_cons]
    rw [removeNoteSegs_text_fresh id q.segs (h q (List.mem_cons_self q rest)),
      ih (fun q2 hq2 => h q2 (List.mem_cons_of_mem q hq2))]

theorem paraTexts_removeHl (id : String) (ps : List Para) :
    paraTexts (ps.map (fun p => { p with segs := removeHlSegs id p.segs })) = paraTexts ps := by
  induction ps with
  | nil => rfl
  | cons q rest ih =>
    simp only [List.map_cons, paraTexts_cons]
    rw [removeHlSegs_text id q.segs, ih]

/-! ### Helpers for the server handlers -/

theorem goTrimPre_append (pre s : List Char) : goTrimPre (pre ++ s) pre = s := by
  unfold goTrimPre
  rw [if_pos (List.isPrefixOf_iff_prefix.mpr (List.prefix_append pre s))]
  exact List.drop_left pre s

theorem toList_ne_nil (s : String) (h : s ≠ "") : s.toList ≠ [] := by
  intro hl
  apply h
  cases s with
  | mk d =>
    simp [String.toList] at hl
    subst hl
    rfl

theorem length_filter_partition (db : List Highlight) (id : String) :
    (db.filter (fun r => r.id != id)).length + (db.filter (fun r => r.id == id)).length
      = db.length := by
  induction db with
  | nil => rfl
  | cons a rest ih =>
    by_cases h : a.id = id
    · have hb : (a.id == id) = true := beq_iff_eq.mpr h
      have hn : (a.id != id) = false := by simp [bne, hb]
      simp only [List.filter_cons, hb, hn, if_true, if_false, List.length_cons,
        Bool.false_eq_true]
      omega
    · have hb : (a.id == id) = false := beq_eq_false_iff_ne.mpr h
      have hn : (a.id != id) = true := by simp [bne, hb]
      simp only [List.filter_cons, hb, hn, if_true, if_false, List.length_cons,
        Bool.false_eq_true]
      omega

/-! ### Claims -/

/-- C9: getRangeLocation returns either null or an object
{verseId, start, end} in which 0 <= start < end (offsets are naturals
here, so non-negative by construction; inverted and zero-length pairs
are rejected by the start < end guard) and verseId is the id of the
resolved verse paragraph, which begins with "verse-". -/
theorem c9_encode_output_invariant (a : Option Para) (r : RangeM) (loc : Loc)
    (h : getRangeLocation a r = some loc) :
    loc.start < loc.stop ∧ jsStartsWith loc.verseId "verse-" = true ∧
    ∃ p, a = some p ∧ loc.verseId = p.id := by
  obtain ⟨h1, h2, p, hp, hid, _⟩ := getRangeLocation_char a r loc h
  exact ⟨h1, h2, p, hp, hid⟩

theorem c9_witness :
    locEx.start < locEx.stop ∧ jsStartsWith locEx.verseId "verse-" = true ∧
    ∃ p, (some pEx : Option Para) = some p ∧ locEx.verseId = p.id :=
  c9_encode_output_invariant (some pEx) rEx locEx (by decide)

/-- C1: round-trip law.  For a valid range confined to one verse anchor,
encoding with getRangeLocation and decoding the resulting {start, end}
against the identically rendered anchor (the node walk of
applyHighlightFromLocation) resolves both nodes, and the decoded
endpoints denote exactly the same absolute character positions of the
anchor text as the original range's endpoints. -/
theorem c1_encode_decode_roundtrip (p : Para) (r : RangeM) (loc : Loc)
    (_hvs : r.startOffset ≤ lenAt p.segs r.startContainer)
    (hve : r.endOffset ≤ lenAt p.segs r.endContainer)
    (henc : getRangeLocation (some p) r = some loc) :
    ∃ si so ei eo, decodeLoc p.segs loc.start loc.stop = some ((si, so), (ei, eo)) ∧
      cumB p.segs si + so = cumB p.segs r.startContainer + r.startOffset ∧
      cumB p.segs ei + eo = cumB p.segs r.endContainer + r.endOffset := by
  obtain ⟨hlt, _, p2, hp2, _, hsei, hee, hs, he⟩ := getRangeLocation_char (some p) r loc henc
  have hp : p = p2 := by injection hp2
  subst hp
  have hstop : loc.stop ≤ sumLens p.segs := by
    have h1 := cumB_succ p.segs r.endContainer hee
    have h2 := cumB_le_sum p.segs (r.endContainer + 1)
    omega
  obtain ⟨si, so, ei, eo, hdec, hs2, he2, _, _, _, _, _⟩ :=
    dec_succ p.segs loc.start loc.stop hlt hstop
  exact ⟨si, so, ei, eo, hdec, by omega, by omega⟩

theorem c1_witness :
    ∃ si so ei eo, decodeLoc pEx.segs locEx.start locEx.stop = some ((si, so), (ei, eo)) ∧
      cumB pEx.segs si + so = cumB pEx.segs rEx.startContainer + rEx.startOffset ∧
      cumB pEx.segs ei + eo = cumB pEx.segs rEx.endContainer + rEx.endOffset :=
  c1_encode_decode_roundtrip pEx rEx locEx (by decide) (by decide) (by decide)

/-- C3 counterexample: the Persistence Service's insert operation does
not reject an inverted range.  A POST body with start = 5, end = 2 is
inserted into the empty table and answered 201, so a stored row with
start >= end exists, contradicting the claim that both the client path
and the insert operation reject such rows before persistence. -/
theorem c3_cx_server_accepts_inverted :
    createHighlightHandler [] (some badRowEx) = ([badRowEx], 201) ∧
    badRowEx.stop ≤ badRowEx.start := by decide

/-- C3 amended: only the client creation path guarantees start < end:
every body addNewHighlight actually submits has start < end, because
getRangeLocation returns null otherwise.  The server's insert performs
no range validation, so a direct POST with start >= end is persisted
(see the counterexample). -/
theorem c3_client_submits_valid_ranges (sel : Option (Option Para × RangeM)) (sc : Scope)
    (ty ta fid : String) (hres : Highlight)
    (hsub : addNewHighlight sel sc ty ta fid = some hres) : hres.start < hres.stop := by
  cases sel with
  | none => simp [addNewHighlight] at hsub
  | some pr =>
    obtain ⟨a, r⟩ := pr
    simp only [addNewHighlight] at hsub
    split at hsub
    · simp at hsub
    · next loc hloc =>
      split at hsub
      · simp at hsub
      · injection hsub with h2
        rw [← h2]
        exact (getRangeLocation_char a r loc hloc).1

theorem c3_client_witness : hlSubmitEx.start < hlSubmitEx.stop :=
  c3_client_submits_valid_ranges (some (some pEx, rEx)) scopeEx "highlight-only" ""
    "h-3" hlSubmitEx (by decide)

/-- C8: with all three query parameters present, GET /api/highlights
answers 200 with exactly the rows whose (translation, bookId, chapter)
scope matches, in table order; and the insert operation only ever
appends to the table, so table order is insertion (creation) order. -/
theorem c8_list_exact_scope_insertion_order (db : List Highlight) (t b c : String)
    (body : Option Highlight) (ht : t ≠ "") (hb : b ≠ "") (hc : c ≠ "") :
    getHighlightsHandler db t b c = (some (db.filter (matchScope t b c)), 200) ∧
    ((createHighlightHandler db body).1 = db ∨
      ∃ h, body = some h ∧ (createHighlightHandler db body).1 = db ++ [h]) := by
  constructor
  · unfold getHighlightsHandler
    rw [if_neg (by simp [ht, hb, hc])]
  · cases body with
    | none => exact Or.inl rfl
    | some h =>
      by_cases hdup : db.any (fun r => r.id == h.id) = true
      · exact Or.inl (by simp [createHighlightHandler, hdup])
      · exact Or.inr ⟨h, rfl, by simp [createHighlightHandler, hdup]⟩

theorem c8_witness :
    getHighlightsHandler dbEx "NASB95" "43" "1"
      = (some (dbEx.filter (matchScope "NASB95" "43" "1")), 200) ∧
    ((createHighlightHandler dbEx (some badRowEx)).1 = dbEx ∨
      ∃ h, (some badRowEx : Option Highlight) = some h ∧
        (createHighlightHandler dbEx (some badRowEx)).1 = dbEx ++ [h]) :=
  c8_list_exact_scope_insertion_order dbEx "NASB95" "43" "1" (some badRowEx)
    (by decide) (by decide) (by decide)

/-- C10: when translation, bookId and chapter are all present but bookId
or chapter is not a numeric string, the handler does not reject the
request: the string parameter is compared against the INTEGER columns,
matches no row, and the response is 200 with the empty JSON array,
never 400. -/
theorem c10_non_numeric_params_yield_200_empty (db : List Highlight) (t b c : String)
    (ht : t ≠ "") (hb : b ≠ "") (hc : c ≠ "")
    (hnn : parseIntQ b = none ∨ parseIntQ c = none) :
    getHighlightsHandler db t b c = (some [], 200) := by
  unfold getHighlightsHandler
  rw [if_neg (by simp [ht, hb, hc])]
  have hf : db.filter (matchScope t b c) = [] := by
    apply List.filter_eq_nil_iff.mpr
    intro r _
    unfold matchScope sqliteIntTextEq
    rcases hnn with h | h
    · rw [h]
      simp
    · rw [h]
      simp
  rw [hf]

theorem c10_witness : getHighlightsHandler dbEx "NASB95" "abc" "1" = (some [], 200) :=
  c10_non_numeric_params_yield_200_empty dbEx "NASB95" "abc" "1"
    (by decide) (by decide) (by decide) (Or.inl (by decide))

/-- C7: the delete endpoint distinguishes its three outcomes by status
code.  For a request to /api/highlights/delete/{id} with non-empty id:
a non-DELETE method answers 405 and leaves the table unchanged; a DELETE
whose id matches stored rows removes exactly the matching rows (the
partition equation certifies nothing else is dropped; ids are unique in
practice, so this is exactly that row) and answers 204; a DELETE
matching no row leaves the table unchanged and answers 404. -/
theorem c7_delete_three_outcomes (db : List Highlight) (method id : String)
    (hid : id ≠ "") :
    (method ≠ "DELETE" →
      deleteHighlightHandler db method (deleteRoutePre ++ id.toList) = (db, 405)) ∧
    (method = "DELETE" → db.any (fun r => r.id == id) = true →
      deleteHighlightHandler db method (deleteRoutePre ++ id.toList)
          = (db.filter (fun r => r.id != id), 204) ∧
        (db.filter (fun r => r.id != id)).length + (db.filter (fun r => r.id == id)).length
          = db.length) ∧
    (method = "DELETE" → db.any (fun r => r.id == id) = false →
      deleteHighlightHandler db method (deleteRoutePre ++ id.toList) = (db, 404)) := by
  have hmk : String.mk id.toList = id := rfl
  refine ⟨?_, ?_, ?_⟩
  · intro hm
    unfold deleteHighlightHandler
    rw [if_pos hm]
  · intro hm hany
    unfold deleteHighlightHandler
    rw [if_neg (by simp [hm]), goTrimPre_append, if_neg (toList_ne_nil id hid), hmk]
    obtain ⟨x, hx, hpx⟩ := List.any_eq_true.mp hany
    have hlt : (db.filter (fun r => r.id != id)).length < db.length :=
      List.length_filter_lt_length_iff_exists.mpr ⟨x, hx, by simp [bne, hpx]⟩
    rw [if_neg (by omega)]
    exact ⟨rfl, length_filter_partition db id⟩
  · intro hm hany
    unfold deleteHighlightHandler
    rw [if_neg (by simp [hm]), goTrimPre_append, if_neg (toList_ne_nil id hid), hmk]
    have hall : ∀ r ∈ db, (r.id == id) = false := by
      intro r hr
      cases hq : r.id == id
      · rfl
      · exfalso
        have htr : db.any (fun r2 => r2.id == id) = true :=
          List.any_eq_true.mpr ⟨r, hr, hq⟩
        rw [hany] at htr
        exact Bool.false_ne_true htr
    have hself : db.filter (fun r => r.id != id) = db := by
      apply List.filter_eq_self.mpr
      intro r hr
      simp [bne, hall r hr]
    show (if (db.filter (fun r => r.id != id)).length = db.length
        then (db, 404) else (db.filter (fun r => r.id != id), 204)) = (db, 404)
    rw [hself, if_pos rfl]

theorem c7_witness :
    ("GET" ≠ "DELETE" →
      deleteHighlightHandler dbEx "GET" (deleteRoutePre ++ "h-1".toList) = (dbEx, 405)) ∧
    ("GET" = "DELETE" → dbEx.any (fun r => r.id == "h-1") = true →
      deleteHighlightHandler dbEx "GET" (deleteRoutePre ++ "h-1".toList)
          = (dbEx.filter (fun r => r.id != "h-1"), 204) ∧
        (dbEx.filter (fun r => r.id != "h-1")).length
            + (dbEx.filter (fun r => r.id == "h-1")).length = dbEx.length) ∧
    ("GET" = "DELETE" → dbEx.any (fun r => r.id == "h-1") = false →
      deleteHighlightHandler dbEx "GET" (deleteRoutePre ++ "h-1".toList) = (dbEx, 404)) :=
  c7_delete_three_outcomes dbEx "GET" "h-1" (by decide)

/-- C2 counterexample: applying a note overlay does not leave the
anchor's text content unchanged.  For the anchor "1" ++ "In the" and the
note annotation [2,5), the concatenated text content after
applyHighlightFromLocation differs from the one before: the marker
element's text (the memo symbol set by noteSymbol.textContent) is real
document text. -/
theorem c2_cx_note_marker_adds_chars :
    paraTexts (applyHighlightFromLocation [pEx] noteHlEx) ≠ paraTexts [pEx] := by decide

/-- C2 amended: applying a note overlay changes the anchor's text
content by inserting the marker symbol's characters at offset start:
the text after equals take start ++ markerChars ++ drop start of the
text before, and markerChars is non-empty, so stored offsets of
annotations positioned at or after start are shifted, not preserved. -/
theorem c2_note_marker_inserts_text (loc : Highlight) (segs : List Seg)
    (hnote : loc.type = "note") (h1 : loc.start < loc.stop) (h2 : loc.stop ≤ sumLens segs) :
    textC (applySegs loc segs)
      = (textC segs).take loc.start ++ (markerChars ++ (textC segs).drop loc.start) ∧
    markerChars ≠ [] := by
  obtain ⟨A, C, heq, hA, hC, _, _⟩ := applySegs_decomp loc segs h1 h2
  refine ⟨?_, by decide⟩
  rw [heq, textC_append, textC_append, hA, hC]
  have hmm : textC (mkMarker (mkW loc)) = markerChars := by
    unfold mkMarker mkW
    simp [hnote, textC]
  rw [hmm]

theorem c2_witness :
    textC (applySegs noteHlEx pEx.segs)
      = (textC pEx.segs).take noteHlEx.start
          ++ (markerChars ++ (textC pEx.segs).drop noteHlEx.start) ∧
    markerChars ≠ [] :=
  c2_note_marker_inserts_text noteHlEx pEx.segs (by decide) (by decide) (by decide)

/-- C4 counterexample: reapplyAllHighlights performs no scope check
before mutating the DOM.  A fetched row stored under the KJV scope is
applied to a DOM displayed under NASB95 (same book and chapter, so the
row's verseId names a current anchor) and changes it, although its
scope differs from the currently displayed one. -/
theorem c4_cx_stale_response_applied :
    Scope.mk staleHlEx.translation staleHlEx.bookId staleHlEx.chapter ≠ stClientEx.scope ∧
    (onHighlightsResponse stClientEx [staleHlEx]).dom ≠ stClientEx.dom := by decide

/-- C4 amended: the client discards nothing: a highlights response is
applied to the current DOM unconditionally.  The only protection
against misapplication is anchor absence: when no rendered paragraph
has a fetched row's verseId (the case for a different book or chapter,
whose ids differ), the DOM is left unchanged; rows from a different
translation of the same book and chapter are applied (see the
counterexample). -/
theorem c4_stale_harmless_only_if_anchor_absent (st : ClientState) (hs : List Highlight)
    (habsent : ∀ h0 ∈ hs, getElemById st.dom h0.verseId = none) :
    (onHighlightsResponse st hs).dom = st.dom ∧
    (onHighlightsResponse st hs).scope = st.scope :=
  ⟨reapply_noop_of_all_absent st.dom hs habsent, rfl⟩

theorem c4_witness :
    (onHighlightsResponse stClientEx [missingHlEx]).dom = stClientEx.dom ∧
    (onHighlightsResponse stClientEx [missingHlEx]).scope = stClientEx.scope :=
  c4_stale_harmless_only_if_anchor_absent stClientEx [missingHlEx] (by decide)

/-- C6: a stored annotation whose offsets no longer resolve against the
current render (the anchor's text is shorter than its end offset) is
skipped without any fault — applyHighlightFromLocation is total and
leaves the DOM unchanged for it — and the re-application pass still
applies every other annotation of the list: dropping the stale row from
the list yields the same final DOM. -/
theorem c6_stale_row_skipped_others_applied (dom : List Para) (pre post : List Highlight)
    (bad : Highlight)
    (hshort : ∀ p ∈ reapplyAllHighlights dom pre, p.id = bad.verseId →
      sumLens p.segs < bad.stop) :
    reapplyAllHighlights dom (pre ++ bad :: post)
      = reapplyAllHighlights dom (pre ++ post) := by
  unfold reapplyAllHighlights
  rw [List.foldl_append, List.foldl_append, List.foldl_cons]
  congr 1
  apply apply_noop_of_short
  intro p hp
  obtain ⟨hmem, hid⟩ := getElemById_mem _ _ _ hp
  exact hshort p hmem hid

theorem c6_witness :
    reapplyAllHighlights [pEx] ([] ++ longHlEx :: [goodHlEx])
      = reapplyAllHighlights [pEx] ([] ++ [goodHlEx]) :=
  c6_stale_row_skipped_others_applied [pEx] [] [goodHlEx] longHlEx (by decide)

/-- C5: for an annotation with start < end <= length of the anchor's
text and an id fresh in the DOM, applying its overlay with
applyHighlightFromLocation and then removing it with removeHighlight
restores every paragraph's text content exactly — no characters gained
or lost — for both kinds: for location.type = "note" the wrapper is
unwrapped and the marker element removed with its text; for any other
type the highlight wrapper is unwrapped. -/
theorem c5_apply_remove_restores_text (dom : List Para) (loc : Highlight) (p : Para)
    (hfind : getElemById dom loc.verseId = some p)
    (h1 : loc.start < loc.stop)
    (h2 : loc.stop ≤ sumLens p.segs)
    (hfresh : ∀ q ∈ dom, ∀ g ∈ q.segs, isMkId loc.id g = false) :
    paraTexts (removeHighlight (applyHighlightFromLocation dom loc) loc.id)
      = paraTexts dom := by
  obtain ⟨d1, d2, hsplit, hpid, hset⟩ := getElemById_decomp dom loc.verseId p hfind
  obtain ⟨A, C, happ, hA, hC, hmA, hmC⟩ := applySegs_decomp loc p.segs h1 h2
  have hpmem : p ∈ dom := by
    rw [hsplit]
    exact List.mem_append_right d1 (List.mem_cons_self p d2)
  have happly : applyHighlightFromLocation dom loc
      = d1 ++ { id := p.id, segs := A ++ (mkMarker (mkW loc) ++ C) } :: d2 := by
    unfold applyHighlightFromLocation
    rw [hfind]
    show setPara dom loc.verseId { p with segs := applySegs loc p.segs } = _
    rw [happ]
    exact hset _
  have hfreshA : ∀ g ∈ A, isMkId loc.id g = false := by
    intro g hg
    obtain ⟨g0, hg0, hm⟩ := hmA g hg
    rw [isMkId_congr loc.id g g0 hm]
    exact hfresh p hpmem g0 hg0
  have hfreshC : ∀ g ∈ C, isMkId loc.id g = false := by
    intro g hg
    obtain ⟨g0, hg0, hm⟩ := hmC g hg
    rw [isMkId_congr loc.id g g0 hm]
    exact hfresh p hpmem g0 hg0
  have hfresh1 : ∀ q ∈ d1, ∀ g ∈ q.segs, isMkId loc.id g = false := by
    intro q hq
    exact hfresh q (by rw [hsplit]; exact List.mem_append_left _ hq)
  have hfresh2 : ∀ q ∈ d2, ∀ g ∈ q.segs, isMkId loc.id g = false := by
    intro q hq
    exact hfresh q (by rw [hsplit]; exact List.mem_append_right _ (List.mem_cons_of_mem p hq))
  have htexts : textC A ++ textC C = textC p.segs := by
    rw [hA, hC]
    exact List.take_append_drop loc.start (textC p.segs)
  rw [happly]
  by_cases hn : loc.type = "note"
  · have hwn : (mkW loc).isNote = true := by simp [mkW, hn]
    have hmkeq : mkMarker (mkW loc)
        = [{ text := markerChars, wraps := [],
             marker := some ((mkW loc).id, (mkW loc).note) }] := by
      unfold mkMarker
      rw [if_pos hwn]
    have hmark : hasMarkerId
        (d1 ++ { id := p.id, segs := A ++ (mkMarker (mkW loc) ++ C) } :: d2) loc.id
          = true := by
      unfold hasMarkerId
      apply List.any_eq_true.mpr
      refine ⟨{ id := p.id, segs := A ++ (mkMarker (mkW loc) ++ C) },
        List.mem_append_right d1 (List.mem_cons_self _ d2), ?_⟩
      apply List.any_eq_true.mpr
      refine ⟨{ text := markerChars, wraps := [],
                marker := some ((mkW loc).id, (mkW loc).note) }, ?_, by simp [isMkId, mkW]⟩
      show _ ∈ A ++ (mkMarker (mkW loc) ++ C)
      apply List.mem_append_right
      apply List.mem_append_left
      rw [hmkeq]
      exact List.mem_cons_self _ []
    unfold removeHighlight
    rw [if_pos hmark]
    simp only [List.map_append, List.map_cons, paraTexts_append, paraTexts_cons]
    rw [paraTexts_removeNote_fresh loc.id d1 hfresh1,
      paraTexts_removeNote_fresh loc.id d2 hfresh2,
      removeNote_of_wrapped loc.id (mkW loc) A C rfl hwn hfreshA hfreshC,
      htexts, hsplit, paraTexts_append, paraTexts_cons]
  · have hwn : (mkW loc).isNote = false := by simp [mkW, hn]
    have hmkeq : mkMarker (mkW loc) = [] := by
      unfold mkMarker
      rw [if_neg (by simp [hwn])]
    have hmark : hasMarkerId
        (d1 ++ { id := p.id, segs := A ++ (mkMarker (mkW loc) ++ C) } :: d2) loc.id
          = false := by
      apply Bool.eq_false_iff.mpr
      intro hcon
      obtain ⟨q, hq, hqa⟩ := List.any_eq_true.mp hcon
      obtain ⟨g, hg, hgid⟩ := List.any_eq_true.mp hqa
      rcases List.mem_append.mp hq with hq1 | hq2
      · rw [hfresh1 q hq1 g hg] at hgid
        exact Bool.false_ne_true hgid
      · rcases List.mem_cons.mp hq2 with hqe | hq3
        · subst hqe
          rw [hmkeq, List.nil_append] at hg
          rcases List.mem_append.mp hg with hgA | hgC
          · rw [hfreshA g hgA] at hgid
            exact Bool.false_ne_true hgid
          · rw [hfreshC g hgC] at hgid
            exact Bool.false_ne_true hgid
        · rw [hfresh2 q hq3 g hg] at hgid
          exact Bool.false_ne_true hgid
    unfold removeHighlight
    rw [if_neg (by simp [hmark])]
    simp only [List.map_append, List.map_cons, paraTexts_append, paraTexts_cons]
    rw [paraTexts_removeHl loc.id d1, paraTexts_removeHl loc.id d2]
    unfold removeHlSegs
    rw [textC_map_dropW, hmkeq, List.nil_append, textC_append, htexts, hsplit,
      paraTexts_append, paraTexts_cons]

theorem c5_witness :
    paraTexts (removeHighlight (applyHighlightFromLocation [pEx] noteHlEx) noteHlEx.id)
      = paraTexts [pEx] :=
  c5_apply_remove_restores_text [pEx] noteHlEx pEx (by decide) (by decide) (by decide)
    (by decide)
